import Mathlib

/-!
Shallow embedding of the CSV-cleaning pipeline found in `src/script.js`
(the functions `readFileWithBestEncoding`, `normalizeHeaderValue` and
`cleanData`), together with theorems settling the specification claims.

Cells are modelled as lists of characters, rows as lists of cells, and grids
as lists of rows.  JavaScript regular-expression replacements are modelled by
structurally recursive list transformations, and the browser `TextDecoder`
results are passed to the encoding resolver as explicit arguments (the UTF-8
decode always succeeds in a browser, the other candidates may be unsupported,
hence `Option`).
-/

namespace FixCsv

/-- A cell of the grid: a JavaScript string, modelled as a list of characters. -/
abbrev Cell := List Char

/-- A row of the grid: an ordered list of cells. -/
abbrev Row := List Cell

/-- A grid: an ordered list of rows; row 0 is the header row. -/
abbrev Grid := List Row

/-- The byte-order-mark code point U+FEFF. -/
def bomChar : Char := Char.ofNat 0xFEFF

/-- The replacement marker U+FFFD produced by non-strict decoding. -/
def replChar : Char := Char.ofNat 0xFFFD

/-- The separator U+0001 used by `cleanData` step 5 to join row cells. -/
def sepChar : Char := Char.ofNat 0x1

/-- JavaScript whitespace: the class matched by the regular expression `\s`
and stripped by `String.prototype.trim` (ECMAScript WhiteSpace and
LineTerminator code points). -/
def isJsWhitespace (c : Char) : Bool :=
  decide (c.toNat = 0x9 ∨ c.toNat = 0xA ∨ c.toNat = 0xB ∨ c.toNat = 0xC ∨
    c.toNat = 0xD ∨ c.toNat = 0x20 ∨ c.toNat = 0xA0 ∨ c.toNat = 0x1680 ∨
    (0x2000 ≤ c.toNat ∧ c.toNat ≤ 0x200A) ∨ c.toNat = 0x2028 ∨
    c.toNat = 0x2029 ∨ c.toNat = 0x202F ∨ c.toNat = 0x205F ∨
    c.toNat = 0x3000 ∨ c.toNat = 0xFEFF)

/-- Drop the trailing characters satisfying `p` (the tail end of a
both-ends strip). -/
def dropTrailingWhile (p : Char → Bool) (l : List Char) : List Char :=
  (l.reverse.dropWhile p).reverse

/-- JavaScript `String.prototype.trim`: strip leading and trailing
JavaScript whitespace. -/
def trimJs (l : List Char) : List Char :=
  dropTrailingWhile isJsWhitespace (l.dropWhile isJsWhitespace)

/-- ASCII-range model of `String.prototype.toLowerCase` (the cleaning rules
only distinguish characters inside `[a-z0-9_]`, so the ASCII range is the
relevant part). -/
def toLowerAscii (c : Char) : Char :=
  if 0x41 ≤ c.toNat ∧ c.toNat ≤ 0x5A then Char.ofNat (c.toNat + 0x20) else c

/-- The character class `[a-z0-9_]` of `normalizeHeaderValue`. -/
def isWordChar (c : Char) : Bool :=
  decide ((0x61 ≤ c.toNat ∧ c.toNat ≤ 0x7A) ∨
    (0x30 ≤ c.toNat ∧ c.toNat ≤ 0x39) ∨ c.toNat = 0x5F)

/-- Test for the underscore character. -/
def isUnderscore (c : Char) : Bool := decide (c = '_')

/-- Model of a global regular-expression replacement that maps every maximal
run of characters satisfying `p` to the single character `r` (as in
`.replace(/\s+/g, a)` or `.replace(/_+/g, a)`).  The boolean flag records
whether the previous input character was part of a run. -/
def collapseMap (p : Char → Bool) (r : Char) : Bool → List Char → List Char
  | _, [] => []
  | inRun, c :: cs =>
    if p c then
      if inRun then collapseMap p r true cs
      else r :: collapseMap p r true cs
    else c :: collapseMap p r false cs

/-- Model of `.replace(/^_+|_+$/g, a)` with the empty replacement: strip the
leading and the trailing run of underscores. -/
def stripEdgeUnderscores (l : List Char) : List Char :=
  dropTrailingWhile isUnderscore (l.dropWhile isUnderscore)

/-- The `normalizeHeaderValue` function of `src/script.js`: trim and
lower-case, then turn whitespace runs into single underscores, replace every
character outside `[a-z0-9_]` by an underscore, collapse underscore runs and
strip edge underscores. -/
def normalizeHeaderValue (value : Cell) : Cell :=
  let raw := (trimJs value).map toLowerAscii
  if raw = [] then []
  else
    stripEdgeUnderscores
      (collapseMap isUnderscore '_' false
        ((collapseMap isJsWhitespace '_' false raw).map
          (fun c => if isWordChar c then c else '_')))

/-- Model of `.replace(/\r\n|\r/g, "\n")`: normalize line endings inside a
cell to a single LF. -/
def normalizeNewlines : List Char → List Char
  | [] => []
  | '\r' :: '\n' :: cs => '\n' :: normalizeNewlines cs
  | '\r' :: cs => '\n' :: normalizeNewlines cs
  | c :: cs => c :: normalizeNewlines cs

/-- The per-cell transformation of `cleanData` step 2: normalize line
endings, then optionally trim. -/
def cleanCell (trim : Bool) (cell : Cell) : Cell :=
  let value := normalizeNewlines cell
  if trim then trimJs value else value

/-- The emptiness test of `cleanData` step 2: every cell trims (with the
always-applied trim of the emptiness check) to the empty string. -/
def isEmptyRow (row : Row) : Bool :=
  row.all (fun cell => decide (trimJs cell = []))

/-- The `cleanData` step 2 loop: map `cleanCell` over every row, and, when
`removeEmpty` is enabled, drop empty rows counting them. Returns the kept
rows together with the `removedEmpty` statistic. -/
def cleanRowsStep (trim removeEmpty : Bool) : Grid → Grid × Nat
  | [] => ([], 0)
  | row :: rest =>
    if removeEmpty && isEmptyRow (row.map (cleanCell trim)) then
      ((cleanRowsStep trim removeEmpty rest).1,
        (cleanRowsStep trim removeEmpty rest).2 + 1)
    else (row.map (cleanCell trim) :: (cleanRowsStep trim removeEmpty rest).1,
      (cleanRowsStep trim removeEmpty rest).2)

/-- Strip a single leading BOM code point, as done both by
`best.text.charCodeAt(0) === 0xfeff` followed by `slice(1)` in the resolver
and by `.replace(/^﻿/, "")` in `cleanData` step 1. -/
def stripLeadingBom (l : List Char) : List Char :=
  match l with
  | [] => []
  | c :: cs => if c = bomChar then cs else c :: cs

/-- The `cleanData` step 1: strip a BOM residue from the first cell of
row 0, when that cell exists. -/
def stripBomStep : Grid → Grid
  | [] => []
  | row :: rest =>
    match row with
    | [] => [] :: rest
    | cell :: cells => (stripLeadingBom cell :: cells) :: rest

/-- The `cleanData` step 3 loop body over all rows, with the expected column
count fixed: rows of the expected length are kept, longer rows are truncated
to their first `expectedCols` cells (counting `trimmedColumns`), shorter rows
are right-padded with empty cells (counting `paddedColumns`). -/
def fixLoop (expectedCols : Nat) : Grid → Grid × Nat × Nat
  | [] => ([], 0, 0)
  | row :: rest =>
    if row.length = expectedCols then
      (row :: (fixLoop expectedCols rest).1,
        (fixLoop expectedCols rest).2.1, (fixLoop expectedCols rest).2.2)
    else if expectedCols < row.length then
      (row.take expectedCols :: (fixLoop expectedCols rest).1,
        (fixLoop expectedCols rest).2.1 + 1, (fixLoop expectedCols rest).2.2)
    else
      ((row ++ List.replicate (expectedCols - row.length) ([] : Cell)) ::
          (fixLoop expectedCols rest).1,
        (fixLoop expectedCols rest).2.1, (fixLoop expectedCols rest).2.2 + 1)

/-- The `cleanData` step 3: when `fixColumns` is enabled, reconcile every
row to the length of the first surviving row. -/
def fixColumnsStep (fixColumns : Bool) (cleanedRows : Grid) : Grid × Nat × Nat :=
  if fixColumns then
    match cleanedRows with
    | [] => ([], 0, 0)
    | h :: t => fixLoop h.length (h :: t)
  else (cleanedRows, 0, 0)

/-- The `cleanData` step 4: when `normalizeHeader` is enabled, map
`normalizeHeaderValue` over row 0. -/
def normalizeHeaderStep (normalizeHeader : Bool) (rows : Grid) : Grid :=
  if normalizeHeader then
    match rows with
    | [] => []
    | h :: t => h.map normalizeHeaderValue :: t
  else rows

/-- The composite dedup key of a row: `row.join("\u0001")`. -/
def joinKey (row : Row) : List Char := List.intercalate [sepChar] row

/-- The `cleanData` step 5 loop over rows 1..end: drop a row whose key is in
the seen-set (counting it), otherwise keep it and add its key. -/
def dedupeGo (seen : List (List Char)) : Grid → Grid × Nat
  | [] => ([], 0)
  | row :: rest =>
    if joinKey row ∈ seen then
      ((dedupeGo seen rest).1, (dedupeGo seen rest).2 + 1)
    else
      (row :: (dedupeGo (joinKey row :: seen) rest).1,
        (dedupeGo (joinKey row :: seen) rest).2)

/-- The `cleanData` step 5: when `dedupe` is enabled, seed the seen-set with
the header key, always keep row 0, and filter rows 1..end by key. -/
def dedupeStep (dedupe : Bool) (rows : Grid) : Grid × Nat :=
  if dedupe then
    match rows with
    | [] => ([], 0)
    | h :: t => (h :: (dedupeGo [joinKey h] t).1, (dedupeGo [joinKey h] t).2)
  else (rows, 0)

/-- The cleaning toggles read by `cleanData`. -/
structure CleanOptions where
  trim : Bool
  removeEmpty : Bool
  fixColumns : Bool
  dedupe : Bool
  normalizeHeader : Bool
deriving DecidableEq, Repr

/-- The statistics record accumulated by `cleanData`. -/
structure CleanStats where
  removedEmpty : Nat
  duplicatesRemoved : Nat
  trimmedColumns : Nat
  paddedColumns : Nat
deriving DecidableEq, Repr

/-- The two exceptions `cleanData` can throw: the no-data guard and the
all-rows-removed guard. -/
inductive CleanError where
  | noData
  | emptyAfterCleaning
deriving DecidableEq, Repr

instance : DecidableEq (Except CleanError (Grid × CleanStats)) := fun a b =>
  match a, b with
  | .error e, .error f => if h : e = f then isTrue (by rw [h]) else
      isFalse (fun hc => by cases hc; exact h rfl)
  | .ok x, .ok y => if h : x = y then isTrue (by rw [h]) else
      isFalse (fun hc => by cases hc; exact h rfl)
  | .error _, .ok _ => isFalse (fun hc => by cases hc)
  | .ok _, .error _ => isFalse (fun hc => by cases hc)

/-- The `cleanData` function of `src/script.js`, as a pure function from the
parsed grid and the options to either an error or to the cleaned grid with
its statistics. -/
def cleanData (originalData : Grid) (options : CleanOptions) :
    Except CleanError (Grid × CleanStats) :=
  if originalData = [] then .error .noData
  else
    let data := stripBomStep originalData
    let cleaned := cleanRowsStep options.trim options.removeEmpty data
    if cleaned.1 = [] then .error .emptyAfterCleaning
    else
      let fixed := fixColumnsStep options.fixColumns cleaned.1
      let rows4 := normalizeHeaderStep options.normalizeHeader fixed.1
      let deduped := dedupeStep options.dedupe rows4
      .ok (deduped.1,
        ⟨cleaned.2, deduped.2, fixed.2.1, fixed.2.2⟩)

/-- The pieces of the page state that `cleanData` writes on success
(`state.cleanedData`, `state.rowsAfter`, `state.lastStats`). -/
structure AppState where
  originalData : Grid
  cleanedData : Option Grid
  rowsAfter : Nat
  lastStats : Option CleanStats
deriving DecidableEq, Repr

/-- The `handleCleanClick` effect on the state: on success the result
replaces the previous cleaned grid and stats; a thrown error is caught and
leaves the state untouched. -/
def runClean (options : CleanOptions) (st : AppState) : AppState :=
  match cleanData st.originalData options with
  | .error _ => st
  | .ok res =>
    { st with cleanedData := some res.1, rowsAfter := res.1.length,
              lastStats := some res.2 }

/-- The running best candidate of `readFileWithBestEncoding`; the count is
`none` for the initial `Number.POSITIVE_INFINITY`. -/
structure BestState where
  text : List Char
  encoding : String
  replacementCount : Option Nat
deriving DecidableEq, Repr

/-- Count of the replacement markers in a decoded text
(`(text.match(/�/g) || []).length`). -/
def countReplacements (t : List Char) : Nat :=
  t.countP (fun c => decide (c = replChar))

/-- Comparison of a finite count against a possibly-infinite best count. -/
def ltOpt (a : Nat) : Option Nat → Bool
  | none => true
  | some b => decide (a < b)

/-- One iteration of the candidate loop in `readFileWithBestEncoding`: an
unsupported encoding (decode `none`) is skipped, otherwise the candidate
replaces the best exactly when its marker count is strictly smaller. -/
def tryCandidate (best : BestState) (enc : String) (decoded : Option (List Char)) :
    BestState :=
  match decoded with
  | none => best
  | some text =>
    let rc := countReplacements text
    if ltOpt rc best.replacementCount then ⟨text, enc, some rc⟩ else best

/-- The final result of the resolver. -/
structure DecodedText where
  text : List Char
  encoding : String
  replacementCount : Nat
deriving DecidableEq, Repr

/-- The `readFileWithBestEncoding` selection logic of `src/script.js`,
parameterized by the decodes of the input bytes under the three candidate
encodings: `utf8Text` is the (always available) UTF-8 decode, the other two
are `none` when the browser does not support the encoding.  Tries the
candidates in order, keeps the strictly best, falls back to the UTF-8 decode
when the best text is empty, and strips one leading BOM code point. -/
def readFileWithBestEncoding (utf8Text : List Char)
    (win1252Text iso88591Text : Option (List Char)) : DecodedText :=
  let b0 : BestState := ⟨[], "utf-8", none⟩
  let b1 := tryCandidate b0 "utf-8" (some utf8Text)
  let b2 := tryCandidate b1 "windows-1252" win1252Text
  let b3 := tryCandidate b2 "iso-8859-1" iso88591Text
  let b4 : BestState :=
    if b3.text = [] then ⟨utf8Text, "utf-8", some (countReplacements utf8Text)⟩
    else b3
  ⟨stripLeadingBom b4.text, b4.encoding, b4.replacementCount.getD 0⟩

/-- Adjacency relation used to state that a character list has no two
neighbouring characters satisfying `p` (used for underscore runs). -/
def NoAdj (p : Char → Bool) (a c : Char) : Prop := p a = false ∨ p c = false

/-! ### Deduplication lemmas -/

theorem dedupeGo_length (rest : Grid) (seen : List (List Char)) :
    (dedupeGo seen rest).1.length + (dedupeGo seen rest).2 = rest.length := by
  induction rest generalizing seen with
  | nil => simp [dedupeGo]
  | cons r rs ih =>
    by_cases h : joinKey r ∈ seen
    · have := ih seen
      simp only [dedupeGo, if_pos h, List.length_cons]
      omega
    · have := ih (joinKey r :: seen)
      simp only [dedupeGo, if_neg h, List.length_cons]
      omega

theorem dedupeGo_sublist (rest : Grid) (seen : List (List Char)) :
    List.Sublist (dedupeGo seen rest).1 rest := by
  induction rest generalizing seen with
  | nil => simp [dedupeGo]
  | cons r rs ih =>
    by_cases h : joinKey r ∈ seen
    · simp only [dedupeGo, if_pos h]
      exact (ih seen).cons r
    · simp only [dedupeGo, if_neg h]
      exact (ih (joinKey r :: seen)).cons₂ r

theorem dedupeGo_not_mem (rest : Grid) (seen : List (List Char)) (h : Row)
    (hseen : joinKey h ∈ seen) : h ∉ (dedupeGo seen rest).1 := by
  induction rest generalizing seen with
  | nil => simp [dedupeGo]
  | cons r rs ih =>
    by_cases hk : joinKey r ∈ seen
    · simp only [dedupeGo, if_pos hk]
      exact ih seen hseen
    · simp only [dedupeGo, if_neg hk, List.mem_cons, not_or]
      refine ⟨fun he => hk (he ▸ hseen), ?_⟩
      exact ih (joinKey r :: seen) (List.mem_cons_of_mem _ hseen)

theorem dedupeGo_count (rest : Grid) (seen : List (List Char)) (h : Row)
    (hseen : joinKey h ∈ seen) :
    rest.countP (fun r => decide (r = h)) ≤ (dedupeGo seen rest).2 := by
  induction rest generalizing seen with
  | nil => simp [dedupeGo]
  | cons r rs ih =>
    by_cases hk : joinKey r ∈ seen
    · have := ih seen hseen
      simp only [dedupeGo, if_pos hk, List.countP_cons]
      split <;> omega
    · have hrh : r ≠ h := fun he => hk (he ▸ hseen)
      have := ih (joinKey r :: seen) (List.mem_cons_of_mem _ hseen)
      simp only [dedupeGo, if_neg hk, List.countP_cons, decide_eq_true_eq,
        if_neg hrh]
      omega

theorem dedupeGo_mem_iff (rest : Grid) (seen : List (List Char)) (r : Row) :
    r ∈ (dedupeGo seen rest).1 ↔
      joinKey r ∉ seen ∧
        ∃ l₁ l₂, rest = l₁ ++ r :: l₂ ∧ ∀ y ∈ l₁, joinKey y ≠ joinKey r := by
  induction rest generalizing seen with
  | nil =>
    simp only [dedupeGo, List.not_mem_nil, false_iff, not_and]
    rintro - ⟨l₁, l₂, h, -⟩
    exact absurd h.symm (by simp)
  | cons x xs ih =>
    by_cases hk : joinKey x ∈ seen
    · simp only [dedupeGo, if_pos hk]
      rw [ih seen]
      constructor
      · rintro ⟨hns, l₁, l₂, rfl, hl⟩
        refine ⟨hns, x :: l₁, l₂, rfl, ?_⟩
        intro y hy
        rcases List.mem_cons.mp hy with rfl | hy'
        · exact fun he => hns (he ▸ hk)
        · exact hl y hy'
      · rintro ⟨hns, l₁, l₂, heq, hl⟩
        cases l₁ with
        | nil =>
          rw [List.nil_append] at heq
          injection heq with h1 h2
          exact absurd (h1 ▸ hk) hns
        | cons a l₁' =>
          rw [List.cons_append] at heq
          injection heq with h1 h2
          subst h1
          exact ⟨hns, l₁', l₂, h2, fun y hy => hl y (List.mem_cons_of_mem _ hy)⟩
    · simp only [dedupeGo, if_neg hk, List.mem_cons]
      rw [ih (joinKey x :: seen)]
      constructor
      · rintro (rfl | ⟨hns, l₁, l₂, rfl, hl⟩)
        · exact ⟨hk, [], xs, rfl, by simp⟩
        · rw [List.mem_cons, not_or] at hns
          refine ⟨hns.2, x :: l₁, l₂, rfl, ?_⟩
          intro y hy
          rcases List.mem_cons.mp hy with rfl | hy'
          · exact fun he => hns.1 he.symm
          · exact hl y hy'
      · rintro ⟨hns, l₁, l₂, heq, hl⟩
        cases l₁ with
        | nil =>
          rw [List.nil_append] at heq
          injection heq with h1 h2
          exact Or.inl h1.symm
        | cons a l₁' =>
          rw [List.cons_append] at heq
          injection heq with h1 h2
          subst h1
          refine Or.inr ⟨?_, l₁', l₂, h2, fun y hy => hl y (List.mem_cons_of_mem _ hy)⟩
          rw [List.mem_cons, not_or]
          exact ⟨fun he => hl x (List.mem_cons_self _ _) he.symm, hns⟩

/-- C1: with dedupe enabled, the deduplication step seeds the seen-set with
the header row's join-key before scanning rows 1..end, so row 0 is kept
first, no row equal cell-for-cell to row 0 survives among the data rows
(even a first such occurrence), and every such row is counted in
`duplicatesRemoved`. -/
theorem dedupeStep_header_seeded (h : Row) (rest : Grid) :
    (dedupeStep true (h :: rest)).1.head? = some h ∧
    h ∉ (dedupeStep true (h :: rest)).1.tail ∧
    rest.countP (fun r => decide (r = h)) ≤ (dedupeStep true (h :: rest)).2 := by
  refine ⟨rfl, ?_, ?_⟩
  · exact dedupeGo_not_mem rest [joinKey h] h (List.mem_singleton.mpr rfl)
  · exact dedupeGo_count rest [joinKey h] h (List.mem_singleton.mpr rfl)

/-- C2 counterexample: with dedupe enabled, a data row that is the first
occurrence of its content among rows 1..end is nevertheless dropped (and
counted) when it is cell-for-cell equal to the header row, because the
header key is seeded into the seen-set. On the grid `[["a"], ["a"]]` the
sole data row is a first occurrence among rows 1..end, yet the output keeps
only the header and reports one removed duplicate. -/
theorem cleanData_drops_first_occurrence_matching_header :
    cleanData [[['a']], [['a']]] ⟨false, false, false, true, false⟩ =
      .ok ([[['a']]], ⟨0, 1, 0, 0⟩) := rfl

/-- C2 (amended): with dedupe enabled, the dedup step is a stable filter on
rows 1..end keyed by the U+0001-joined cells: row 0 is kept first, the
surviving data rows form a sublist of the input data rows (order unchanged),
`duplicatesRemoved` is exactly the number of dropped data rows, and a data
row survives exactly when its join-key differs from the header's join-key
and it is the first row of rows 1..end bearing its join-key. -/
theorem dedupeStep_stable_filter (h : Row) (rest : Grid) :
    (dedupeStep true (h :: rest)).1.head? = some h ∧
    List.Sublist (dedupeStep true (h :: rest)).1.tail rest ∧
    (dedupeStep true (h :: rest)).1.tail.length + (dedupeStep true (h :: rest)).2
      = rest.length ∧
    ∀ r : Row, r ∈ (dedupeStep true (h :: rest)).1.tail ↔
      (joinKey r ≠ joinKey h ∧
        ∃ l₁ l₂, rest = l₁ ++ r :: l₂ ∧ ∀ y ∈ l₁, joinKey y ≠ joinKey r) := by
  refine ⟨rfl, dedupeGo_sublist rest _, dedupeGo_length rest _, fun r => ?_⟩
  rw [show (dedupeStep true (h :: rest)).1.tail = (dedupeGo [joinKey h] rest).1 from rfl,
    dedupeGo_mem_iff]
  simp [List.mem_singleton]

/-- C10: the dedup key joins cells with U+0001, so the distinct rows
`["a\u0001b"]` and `["a", "b"]` share one key; with dedupe enabled the later
of the pair is dropped and counted in `duplicatesRemoved`. -/
theorem joinKey_collision_dropped :
    ([['a', sepChar, 'b']] : Row) ≠ [['a'], ['b']] ∧
    joinKey [['a', sepChar, 'b']] = joinKey [['a'], ['b']] ∧
    cleanData [[['h']], [['a', sepChar, 'b']], [['a'], ['b']]]
        ⟨false, false, false, true, false⟩ =
      .ok ([[['h']], [['a', sepChar, 'b']]], ⟨0, 1, 0, 0⟩) :=
  ⟨by decide, rfl, rfl⟩

/-! ### Column-reconciliation lemmas -/

theorem fixLoop_forall₂ (expected : Nat) (rows : Grid) :
    List.Forall₂ (fun (rin rout : Row) =>
      (rin.length = expected → rout = rin) ∧
      (expected < rin.length → rout = rin.take expected) ∧
      (rin.length < expected →
        rout = rin ++ List.replicate (expected - rin.length) ([] : Cell)))
      rows (fixLoop expected rows).1 := by
  induction rows with
  | nil => simp [fixLoop]
  | cons r rs ih =>
    by_cases h1 : r.length = expected
    · simp only [fixLoop, if_pos h1]
      refine List.Forall₂.cons ⟨fun _ => rfl, ?_, ?_⟩ ih
      · omega
      · omega
    · by_cases h2 : expected < r.length
      · simp only [fixLoop, if_neg h1, if_pos h2]
        refine List.Forall₂.cons ⟨fun hc => absurd hc h1, fun _ => rfl, ?_⟩ ih
        omega
      · simp only [fixLoop, if_neg h1, if_neg h2]
        refine List.Forall₂.cons ⟨fun hc => absurd hc h1, fun hc => absurd hc h2,
          fun _ => rfl⟩ ih

theorem fixLoop_counts (expected : Nat) (rows : Grid) :
    (fixLoop expected rows).2.1 =
      rows.countP (fun r => decide (expected < r.length)) ∧
    (fixLoop expected rows).2.2 =
      rows.countP (fun r => decide (r.length < expected)) := by
  induction rows with
  | nil => simp [fixLoop]
  | cons r rs ih =>
    by_cases h1 : r.length = expected
    · have hlt : ¬ expected < r.length := by omega
      have hgt : ¬ r.length < expected := by omega
      simp [fixLoop, if_pos h1, List.countP_cons, hlt, hgt, ih.1, ih.2]
    · by_cases h2 : expected < r.length
      · have hgt : ¬ r.length < expected := by omega
        simp [fixLoop, if_neg h1, if_pos h2, List.countP_cons, h2, hgt, ih.1, ih.2]
      · have hgt : r.length < expected := by omega
        simp [fixLoop, if_neg h1, if_neg h2, List.countP_cons, h2, hgt, ih.1, ih.2]

theorem fixLoop_row_lengths (expected : Nat) (rows : Grid) :
    ∀ r ∈ (fixLoop expected rows).1, r.length = expected := by
  induction rows with
  | nil => simp [fixLoop]
  | cons r rs ih =>
    by_cases h1 : r.length = expected
    · simp only [fixLoop, if_pos h1, List.mem_cons]
      rintro x (rfl | hx)
      · exact h1
      · exact ih x hx
    · by_cases h2 : expected < r.length
      · simp only [fixLoop, if_neg h1, if_pos h2, List.mem_cons]
        rintro x (rfl | hx)
        · simp only [List.length_take]
          omega
        · exact ih x hx
      · simp only [fixLoop, if_neg h1, if_neg h2, List.mem_cons]
        rintro x (rfl | hx)
        · simp only [List.length_append, List.length_replicate]
          omega
        · exact ih x hx

theorem length_count_trichotomy (expected : Nat) (rows : Grid) :
    rows.countP (fun r => decide (expected < r.length)) +
      rows.countP (fun r => decide (r.length < expected)) +
      rows.countP (fun r => decide (r.length = expected)) = rows.length := by
  induction rows with
  | nil => simp
  | cons r rs ih =>
    simp only [List.countP_cons, List.length_cons, decide_eq_true_eq]
    rcases Nat.lt_trichotomy r.length expected with h | h | h
    · rw [if_neg (by omega : ¬ expected < r.length), if_pos h,
        if_neg (by omega : ¬ r.length = expected)]
      omega
    · rw [if_neg (by omega : ¬ expected < r.length),
        if_neg (by omega : ¬ r.length < expected), if_pos h]
      omega
    · rw [if_pos h, if_neg (by omega : ¬ r.length < expected),
        if_neg (by omega : ¬ r.length = expected)]
      omega

/-- C4: with `fixColumns` enabled, every output row has the length of the
first surviving row; a row of that length is unchanged, a longer row is
truncated to its first `expectedCols` cells and counted in
`trimmedColumns`, a shorter row is extended by trailing empty cells and
counted in `paddedColumns`; and the trimmed, padded and unchanged row counts
add up to the number of rows surviving empty-row removal. -/
theorem fixColumnsStep_spec (r0 : Row) (rest : Grid) :
    (∀ r ∈ (fixColumnsStep true (r0 :: rest)).1, r.length = r0.length) ∧
    List.Forall₂ (fun (rin rout : Row) =>
      (rin.length = r0.length → rout = rin) ∧
      (r0.length < rin.length → rout = rin.take r0.length) ∧
      (rin.length < r0.length →
        rout = rin ++ List.replicate (r0.length - rin.length) ([] : Cell)))
      (r0 :: rest) (fixColumnsStep true (r0 :: rest)).1 ∧
    (fixColumnsStep true (r0 :: rest)).2.1 =
      (r0 :: rest).countP (fun r => decide (r0.length < r.length)) ∧
    (fixColumnsStep true (r0 :: rest)).2.2 =
      (r0 :: rest).countP (fun r => decide (r.length < r0.length)) ∧
    (fixColumnsStep true (r0 :: rest)).2.1 + (fixColumnsStep true (r0 :: rest)).2.2 +
      (r0 :: rest).countP (fun r => decide (r.length = r0.length)) =
      (r0 :: rest).length := by
  have he : fixColumnsStep true (r0 :: rest) = fixLoop r0.length (r0 :: rest) := rfl
  rw [he]
  refine ⟨fixLoop_row_lengths _ _, fixLoop_forall₂ _ _, (fixLoop_counts _ _).1,
    (fixLoop_counts _ _).2, ?_⟩
  rw [(fixLoop_counts r0.length (r0 :: rest)).1, (fixLoop_counts r0.length (r0 :: rest)).2]
  exact length_count_trichotomy r0.length (r0 :: rest)

/-! ### Row-count bookkeeping lemmas -/

theorem cleanRowsStep_length (trim removeEmpty : Bool) (g : Grid) :
    (cleanRowsStep trim removeEmpty g).1.length +
      (cleanRowsStep trim removeEmpty g).2 = g.length := by
  induction g with
  | nil => simp [cleanRowsStep]
  | cons r rs ih =>
    by_cases h : removeEmpty && isEmptyRow (r.map (cleanCell trim))
    · simp only [cleanRowsStep, if_pos h, List.length_cons]
      omega
    · simp only [cleanRowsStep, if_neg h, List.length_cons]
      omega

theorem fixLoop_length (expected : Nat) (rows : Grid) :
    (fixLoop expected rows).1.length = rows.length := by
  induction rows with
  | nil => simp [fixLoop]
  | cons r rs ih =>
    by_cases h1 : r.length = expected
    · simp [fixLoop, if_pos h1, ih]
    · by_cases h2 : expected < r.length
      · simp [fixLoop, if_neg h1, if_pos h2, ih]
      · simp [fixLoop, if_neg h1, if_neg h2, ih]

theorem fixColumnsStep_length (b : Bool) (rows : Grid) :
    (fixColumnsStep b rows).1.length = rows.length := by
  cases b
  · rfl
  · cases rows with
    | nil => rfl
    | cons h t => exact fixLoop_length h.length (h :: t)

theorem normalizeHeaderStep_length (b : Bool) (rows : Grid) :
    (normalizeHeaderStep b rows).length = rows.length := by
  cases b
  · rfl
  · cases rows <;> rfl

theorem dedupeStep_length (b : Bool) (rows : Grid) :
    (dedupeStep b rows).1.length + (dedupeStep b rows).2 = rows.length := by
  cases b
  · simp [dedupeStep]
  · cases rows with
    | nil => rfl
    | cons h t =>
      have := dedupeGo_length t [joinKey h]
      simp only [dedupeStep, if_pos rfl, List.length_cons]
      simpa using by omega

theorem stripBomStep_length (g : Grid) : (stripBomStep g).length = g.length := by
  cases g with
  | nil => rfl
  | cons r rest => cases r <;> rfl

/-- C5: for every grid (of string-cell rows) and options under which
cleaning succeeds, the row counts balance exactly:
`rowsBefore = rowsAfter + removedEmpty + duplicatesRemoved`, so every
dropped row is accounted for by exactly one reported statistic. -/
theorem cleanData_row_balance (grid : Grid) (options : CleanOptions)
    (out : Grid) (stats : CleanStats)
    (h : cleanData grid options = .ok (out, stats)) :
    grid.length = out.length + stats.removedEmpty + stats.duplicatesRemoved := by
  simp only [cleanData] at h
  by_cases h0 : grid = []
  · simp [h0] at h
  · rw [if_neg h0] at h
    by_cases hc : (cleanRowsStep options.trim options.removeEmpty
        (stripBomStep grid)).1 = []
    · rw [if_pos hc] at h
      simp at h
    · rw [if_neg hc] at h
      rw [Except.ok.injEq, Prod.mk.injEq] at h
      obtain ⟨hout, hstats⟩ := h
      have e1 := stripBomStep_length grid
      have e2 := cleanRowsStep_length options.trim options.removeEmpty
        (stripBomStep grid)
      have e3 := fixColumnsStep_length options.fixColumns
        (cleanRowsStep options.trim options.removeEmpty (stripBomStep grid)).1
      have e4 := normalizeHeaderStep_length options.normalizeHeader
        (fixColumnsStep options.fixColumns
          (cleanRowsStep options.trim options.removeEmpty (stripBomStep grid)).1).1
      have e5 := dedupeStep_length options.dedupe
        (normalizeHeaderStep options.normalizeHeader
          (fixColumnsStep options.fixColumns
            (cleanRowsStep options.trim options.removeEmpty (stripBomStep grid)).1).1)
      subst hout
      rw [← hstats]
      simp only []
      omega

/-- C5 witness: a concrete successful run in which one empty row and one
duplicate row are dropped balances `3 = 1 + 1 + 1`. -/
theorem cleanData_row_balance_witness :
    ([[['a']], [[]], [['a']]] : Grid).length =
      ([[['a']]] : Grid).length + 1 + 1 :=
  cleanData_row_balance [[['a']], [[]], [['a']]] ⟨true, true, false, true, false⟩
    [[['a']]] ⟨1, 1, 0, 0⟩ rfl

/-- C6: `cleanData` fails with the all-rows-removed error exactly when the
input grid is non-empty and the trim/empty-row-removal step keeps no row;
the decision depends only on that step (the later steps do not run), and on
any failure the previously produced cleaned grid, row count and stats are
left untouched. -/
theorem cleanData_emptyAfterCleaning_iff (grid : Grid) (options : CleanOptions) :
    (cleanData grid options = .error .emptyAfterCleaning ↔
      grid ≠ [] ∧
        (cleanRowsStep options.trim options.removeEmpty (stripBomStep grid)).1
          = []) ∧
    ∀ (st : AppState) (e : CleanError), st.originalData = grid →
      cleanData grid options = .error e → runClean options st = st := by
  constructor
  · simp only [cleanData]
    by_cases h0 : grid = []
    · simp [h0]
    · rw [if_neg h0]
      by_cases hc : (cleanRowsStep options.trim options.removeEmpty
          (stripBomStep grid)).1 = []
      · simp [hc, h0]
      · simp [hc, h0]
  · intro st e hst h
    unfold runClean
    rw [hst, h]

/-- C6 witness: a grid whose only row trims to empty fails with the
all-rows-removed error and leaves a previously populated state unchanged. -/
theorem cleanData_emptyAfterCleaning_witness :
    runClean ⟨true, true, true, false, true⟩
        ⟨[[[' ']]], some [[['x']]], 1, some ⟨0, 0, 0, 0⟩⟩ =
      ⟨[[[' ']]], some [[['x']]], 1, some ⟨0, 0, 0, 0⟩⟩ :=
  (cleanData_emptyAfterCleaning_iff [[[' ']]] ⟨true, true, true, false, true⟩).2
    ⟨[[[' ']]], some [[['x']]], 1, some ⟨0, 0, 0, 0⟩⟩ .emptyAfterCleaning rfl rfl

/-- Helper: the first surviving row passes through the column-fixing step
unchanged and first. -/
theorem fixColumnsStep_cons (b : Bool) (hd : Row) (t : Grid) :
    ∃ t', (fixColumnsStep b (hd :: t)).1 = hd :: t' := by
  cases b
  · exact ⟨t, rfl⟩
  · refine ⟨(fixLoop hd.length t).1, ?_⟩
    simp [fixColumnsStep, fixLoop]

/-- C9: whenever `cleanData` succeeds (the all-rows-removed guard did not
fire), the cleaned output grid is non-empty and its first row is the first
row surviving empty-row removal, normalized when `normalizeHeader` is
enabled: row 0 is never removed by column reconciliation, header
normalization or deduplication, so the later row-0 accesses are in
bounds. -/
theorem cleanData_header_preserved (grid : Grid) (options : CleanOptions)
    (out : Grid) (stats : CleanStats)
    (h : cleanData grid options = .ok (out, stats)) :
    ∃ hd t,
      (cleanRowsStep options.trim options.removeEmpty (stripBomStep grid)).1
        = hd :: t ∧
      out ≠ [] ∧
      out.head? = some
        (if options.normalizeHeader then hd.map normalizeHeaderValue else hd) := by
  simp only [cleanData] at h
  by_cases h0 : grid = []
  · simp [h0] at h
  · rw [if_neg h0] at h
    by_cases hc : (cleanRowsStep options.trim options.removeEmpty
        (stripBomStep grid)).1 = []
    · rw [if_pos hc] at h
      simp at h
    · rw [if_neg hc] at h
      obtain ⟨hd, t, hht⟩ := List.exists_cons_of_ne_nil hc
      refine ⟨hd, t, hht, ?_⟩
      rw [Except.ok.injEq, Prod.mk.injEq] at h
      obtain ⟨hout, -⟩ := h
      obtain ⟨t', ht'⟩ := fixColumnsStep_cons options.fixColumns hd t
      rw [hht, ht'] at hout
      cases hnh : options.normalizeHeader with
      | false =>
        rw [hnh] at hout
        simp only [normalizeHeaderStep] at hout
        cases hdd : options.dedupe with
        | false =>
          rw [hdd] at hout
          simp only [dedupeStep] at hout
          subst hout
          simp
        | true =>
          rw [hdd] at hout
          simp only [dedupeStep] at hout
          subst hout
          simp
      | true =>
        rw [hnh] at hout
        simp only [normalizeHeaderStep] at hout
        cases hdd : options.dedupe with
        | false =>
          rw [hdd] at hout
          simp only [dedupeStep] at hout
          subst hout
          simp
        | true =>
          rw [hdd] at hout
          simp only [dedupeStep] at hout
          subst hout
          simp

/-- C9 witness: a concrete successful run keeps the (normalized) header
first. -/
theorem cleanData_header_preserved_witness :
    ∃ hd t,
      (cleanRowsStep true true (stripBomStep [[['A']]])).1 = hd :: t ∧
      ([[['a']]] : Grid) ≠ [] ∧
      ([[['a']]] : Grid).head? = some
        (if true then hd.map normalizeHeaderValue else hd) :=
  cleanData_header_preserved [[['A']]] ⟨true, true, true, false, true⟩
    [[['a']]] ⟨0, 0, 0, 0⟩ rfl

/-! ### Header-normalization lemmas -/

theorem word_not_ws (c : Char) (h : isWordChar c = true) : isJsWhitespace c = false := by
  simp only [isWordChar, decide_eq_true_eq] at h
  simp only [isJsWhitespace, decide_eq_false_iff_not]
  omega

theorem word_toLower (c : Char) (h : isWordChar c = true) : toLowerAscii c = c := by
  simp only [isWordChar, decide_eq_true_eq] at h
  unfold toLowerAscii
  rw [if_neg (by omega : ¬(0x41 ≤ c.toNat ∧ c.toNat ≤ 0x5A))]

theorem mapWord_all (l : List Char) :
    ∀ c ∈ l.map (fun c => if isWordChar c then c else '_'), isWordChar c = true := by
  intro c hc
  rw [List.mem_map] at hc
  obtain ⟨a, -, rfl⟩ := hc
  by_cases ha : isWordChar a = true
  · rw [if_pos ha]
    exact ha
  · rw [if_neg ha]
    decide

theorem collapseMap_cons_pos_true (p : Char → Bool) (r a : Char) (t : List Char)
    (h : p a = true) : collapseMap p r true (a :: t) = collapseMap p r true t := by
  simp [collapseMap, h]

theorem collapseMap_cons_pos_false (p : Char → Bool) (r a : Char) (t : List Char)
    (h : p a = true) :
    collapseMap p r false (a :: t) = r :: collapseMap p r true t := by
  simp [collapseMap, h]

theorem collapseMap_cons_neg (p : Char → Bool) (r : Char) (b : Bool) (a : Char)
    (t : List Char) (h : p a = false) :
    collapseMap p r b (a :: t) = a :: collapseMap p r false t := by
  simp [collapseMap, h]

theorem collapseMap_mem (p : Char → Bool) (r : Char) (l : List Char) :
    ∀ (b : Bool), ∀ c ∈ collapseMap p r b l, c = r ∨ c ∈ l := by
  induction l with
  | nil => intro b c hc; simp [collapseMap] at hc
  | cons a t ih =>
    intro b c hc
    by_cases pa : p a = true
    · cases b with
      | true =>
        rw [collapseMap_cons_pos_true p r a t pa] at hc
        rcases ih true c hc with h | h
        · exact Or.inl h
        · exact Or.inr (List.mem_cons_of_mem a h)
      | false =>
        rw [collapseMap_cons_pos_false p r a t pa] at hc
        rcases List.mem_cons.mp hc with rfl | hc'
        · exact Or.inl rfl
        · rcases ih true c hc' with h | h
          · exact Or.inl h
          · exact Or.inr (List.mem_cons_of_mem a h)
    · rw [Bool.not_eq_true] at pa
      rw [collapseMap_cons_neg p r b a t pa] at hc
      rcases List.mem_cons.mp hc with rfl | hc'
      · exact Or.inr (List.mem_cons_self _ _)
      · rcases ih false c hc' with h | h
        · exact Or.inl h
        · exact Or.inr (List.mem_cons_of_mem a h)

theorem collapseMap_head_not (p : Char → Bool) (r : Char) (l : List Char) :
    ∀ c, (collapseMap p r true l).head? = some c → p c = false := by
  induction l with
  | nil => intro c hc; simp [collapseMap] at hc
  | cons a t ih =>
    intro c
    by_cases pa : p a = true
    · rw [collapseMap_cons_pos_true p r a t pa]
      exact ih c
    · rw [Bool.not_eq_true] at pa
      rw [collapseMap_cons_neg p r true a t pa]
      simp only [List.head?_cons, Option.some.injEq]
      rintro rfl
      exact pa

theorem collapseMap_chain (p : Char → Bool) (r : Char) (l : List Char) :
    ∀ b, List.Chain' (NoAdj p) (collapseMap p r b l) := by
  induction l with
  | nil => intro b; simp [collapseMap]
  | cons a t ih =>
    intro b
    by_cases pa : p a = true
    · cases b with
      | true =>
        rw [collapseMap_cons_pos_true p r a t pa]
        exact ih true
      | false =>
        rw [collapseMap_cons_pos_false p r a t pa]
        rw [List.chain'_cons']
        refine ⟨fun y hy => Or.inr (collapseMap_head_not p r t y hy), ih true⟩
    · rw [Bool.not_eq_true] at pa
      rw [collapseMap_cons_neg p r b a t pa]
      rw [List.chain'_cons']
      exact ⟨fun y _ => Or.inl pa, ih false⟩

theorem chain_dropWhile {R : Char → Char → Prop} (q : Char → Bool) :
    ∀ (l : List Char), List.Chain' R l → List.Chain' R (l.dropWhile q)
  | [], h => h
  | a :: t, h => by
    rw [List.dropWhile_cons]
    split
    · exact chain_dropWhile q t h.tail
    · exact h

theorem chain_reverse_noAdj (p : Char → Bool) (l : List Char)
    (h : List.Chain' (NoAdj p) l) : List.Chain' (NoAdj p) l.reverse := by
  rw [List.chain'_reverse]
  exact h.imp fun a b hab => hab.symm

theorem chain_dropTrailingWhile (p q : Char → Bool) (l : List Char)
    (h : List.Chain' (NoAdj p) l) :
    List.Chain' (NoAdj p) (dropTrailingWhile q l) := by
  unfold dropTrailingWhile
  exact chain_reverse_noAdj p _ (chain_dropWhile q _ (chain_reverse_noAdj p l h))

theorem dropTrailingWhile_subset (q : Char → Bool) (l : List Char) :
    ∀ c ∈ dropTrailingWhile q l, c ∈ l := by
  intro c hc
  unfold dropTrailingWhile at hc
  rw [List.mem_reverse] at hc
  have hm := List.dropWhile_subset (l := l.reverse) q hc
  rw [List.mem_reverse] at hm
  exact hm

theorem stripEdgeUnderscores_subset (l : List Char) :
    ∀ c ∈ stripEdgeUnderscores l, c ∈ l := by
  intro c hc
  unfold stripEdgeUnderscores at hc
  exact List.dropWhile_subset isUnderscore (dropTrailingWhile_subset _ _ c hc)

theorem head?_dropWhile_false (q : Char → Bool) (l : List Char) (c : Char)
    (h : (l.dropWhile q).head? = some c) : q c = false := by
  induction l with
  | nil => simp at h
  | cons a t ih =>
    rw [List.dropWhile_cons] at h
    split at h
    · exact ih h
    · next hq =>
      simp only [List.head?_cons, Option.some.injEq] at h
      subst h
      rw [Bool.not_eq_true] at hq
      exact hq

theorem reverse_dropTrailingWhile (q : Char → Bool) (l : List Char) :
    (dropTrailingWhile q l).reverse = l.reverse.dropWhile q := by
  unfold dropTrailingWhile
  rw [List.reverse_reverse]

theorem head?_dropTrailingWhile (q : Char → Bool) (l : List Char)
    (h : dropTrailingWhile q l ≠ []) :
    (dropTrailingWhile q l).head? = l.head? := by
  obtain ⟨t, ht⟩ := List.dropWhile_suffix (l := l.reverse) q
  have hl : (l.reverse.dropWhile q).reverse ++ t.reverse = l := by
    rw [← List.reverse_append, ht, List.reverse_reverse]
  unfold dropTrailingWhile at h ⊢
  cases hsr : (l.reverse.dropWhile q).reverse with
  | nil => exact absurd hsr h
  | cons c cs =>
    have hgoal : l.head? = some c := by
      rw [← hl, hsr]
      simp
    rw [hgoal]
    simp

theorem dropWhile_eq_self_of_head (q : Char → Bool) (l : List Char)
    (h : ∀ c, l.head? = some c → q c = false) : l.dropWhile q = l := by
  cases l with
  | nil => rfl
  | cons a t =>
    exact List.dropWhile_cons_of_neg (by simp [h a rfl])

theorem dropWhile_eq_self_of_all (q : Char → Bool) (l : List Char)
    (h : ∀ c ∈ l, q c = false) : l.dropWhile q = l := by
  refine dropWhile_eq_self_of_head q l fun c hc => ?_
  cases l with
  | nil => simp at hc
  | cons a t =>
    simp only [List.head?_cons, Option.some.injEq] at hc
    rw [← hc]
    exact h a (List.mem_cons_self a t)

theorem trimJs_eq_self (l : List Char) (h : ∀ c ∈ l, isJsWhitespace c = false) :
    trimJs l = l := by
  unfold trimJs dropTrailingWhile
  rw [dropWhile_eq_self_of_all _ l h,
    dropWhile_eq_self_of_all _ l.reverse (fun c hc => h c (List.mem_reverse.mp hc)),
    List.reverse_reverse]

theorem map_eq_self_of_fix (f : Char → Char) (l : List Char)
    (h : ∀ c ∈ l, f c = c) : l.map f = l := by
  induction l with
  | nil => rfl
  | cons a t ih =>
    rw [List.map_cons, h a (List.mem_cons_self a t),
      ih fun c hc => h c (List.mem_cons_of_mem a hc)]

theorem collapseMap_eq_self_of_no (p : Char → Bool) (r : Char) (l : List Char)
    (h : ∀ c ∈ l, p c = false) : ∀ b, collapseMap p r b l = l := by
  induction l with
  | nil => intro b; rfl
  | cons a t ih =>
    intro b
    rw [collapseMap_cons_neg p r b a t (h a (List.mem_cons_self a t)),
      ih (fun c hc => h c (List.mem_cons_of_mem a hc)) false]

theorem collapseMap_true_eq_false_of_head (p : Char → Bool) (r : Char)
    (l : List Char) (h : ∀ c, l.head? = some c → p c = false) :
    collapseMap p r true l = collapseMap p r false l := by
  cases l with
  | nil => rfl
  | cons a t =>
    rw [collapseMap_cons_neg p r true a t (h a rfl),
      collapseMap_cons_neg p r false a t (h a rfl)]

theorem collapseMap_eq_self_of_chain (p : Char → Bool) (r : Char) :
    ∀ (l : List Char), List.Chain' (NoAdj p) l →
      (∀ c ∈ l, p c = true → c = r) → collapseMap p r false l = l
  | [], _, _ => rfl
  | a :: t, hch, hv => by
    by_cases pa : p a = true
    · rw [collapseMap_cons_pos_false p r a t pa]
      have hhead : ∀ c, t.head? = some c → p c = false := by
        intro c hc
        rcases (List.chain'_cons'.mp hch).1 c hc with h1 | h2
        · exact absurd pa (by simp [h1])
        · exact h2
      rw [collapseMap_true_eq_false_of_head p r t hhead,
        collapseMap_eq_self_of_chain p r t (List.chain'_cons'.mp hch).2
          (fun c hc hpc => hv c (List.mem_cons_of_mem a hc) hpc),
        hv a (List.mem_cons_self a t) pa]
    · rw [Bool.not_eq_true] at pa
      rw [collapseMap_cons_neg p r false a t pa,
        collapseMap_eq_self_of_chain p r t (List.chain'_cons'.mp hch).2
          (fun c hc hpc => hv c (List.mem_cons_of_mem a hc) hpc)]

theorem stripEdgeUnderscores_eq_self (l : List Char)
    (h1 : ∀ c, l.head? = some c → isUnderscore c = false)
    (h2 : ∀ c, l.reverse.head? = some c → isUnderscore c = false) :
    stripEdgeUnderscores l = l := by
  unfold stripEdgeUnderscores dropTrailingWhile
  rw [dropWhile_eq_self_of_head _ l h1,
    dropWhile_eq_self_of_head _ l.reverse h2,
    List.reverse_reverse]

/-- C8: header normalization is idempotent: a second application of
`normalizeHeaderValue` to an already-normalized header cell changes
nothing. -/
theorem normalizeHeaderValue_idempotent (x : Cell) :
    normalizeHeaderValue (normalizeHeaderValue x) = normalizeHeaderValue x := by
  by_cases hraw : ((trimJs x).map toLowerAscii) = []
  · have hx : normalizeHeaderValue x = [] := by
      simp only [normalizeHeaderValue]
      rw [if_pos hraw]
    rw [hx]
    rfl
  · have hx : normalizeHeaderValue x = stripEdgeUnderscores
        (collapseMap isUnderscore '_' false
          ((collapseMap isJsWhitespace '_' false ((trimJs x).map toLowerAscii)).map
            (fun c => if isWordChar c then c else '_'))) := by
      simp only [normalizeHeaderValue]
      rw [if_neg hraw]
    rw [hx]
    set w := (collapseMap isJsWhitespace '_' false ((trimJs x).map toLowerAscii)).map
      (fun c => if isWordChar c then c else '_') with hwdef
    set y := stripEdgeUnderscores (collapseMap isUnderscore '_' false w) with hydef
    have hz_word : ∀ c ∈ collapseMap isUnderscore '_' false w, isWordChar c = true := by
      intro c hc
      rcases collapseMap_mem isUnderscore '_' w false c hc with rfl | hcw
      · decide
      · exact mapWord_all _ c hcw
    have hy_word : ∀ c ∈ y, isWordChar c = true := by
      intro c hc
      exact hz_word c (stripEdgeUnderscores_subset _ c hc)
    have hy_chain : List.Chain' (NoAdj isUnderscore) y := by
      rw [hydef]
      unfold stripEdgeUnderscores
      exact chain_dropTrailingWhile _ _ _
        (chain_dropWhile _ _ (collapseMap_chain isUnderscore '_' w false))
    by_cases hyn : y = []
    · rw [hyn]
      rfl
    · have hhead : ∀ c, y.head? = some c → isUnderscore c = false := by
        intro c hc
        rw [hydef] at hc hyn
        unfold stripEdgeUnderscores at hc hyn
        rw [head?_dropTrailingWhile _ _ hyn] at hc
        exact head?_dropWhile_false _ _ _ hc
      have hlast : ∀ c, y.reverse.head? = some c → isUnderscore c = false := by
        intro c hc
        rw [hydef] at hc
        unfold stripEdgeUnderscores at hc
        rw [reverse_dropTrailingWhile] at hc
        exact head?_dropWhile_false _ _ _ hc
      have hws : ∀ c ∈ y, isJsWhitespace c = false :=
        fun c hc => word_not_ws c (hy_word c hc)
      have htrim : trimJs y = y := trimJs_eq_self y hws
      have hlower : y.map toLowerAscii = y :=
        map_eq_self_of_fix _ y fun c hc => word_toLower c (hy_word c hc)
      simp only [normalizeHeaderValue]
      rw [htrim, hlower, if_neg hyn,
        collapseMap_eq_self_of_no isJsWhitespace '_' y hws false,
        map_eq_self_of_fix _ y (fun c hc => if_pos (hy_word c hc)),
        collapseMap_eq_self_of_chain isUnderscore '_' y hy_chain
          (fun c _ hpc => by simpa [isUnderscore] using hpc)]
      exact stripEdgeUnderscores_eq_self y hhead hlast

/-! ### Encoding-resolver lemmas -/

theorem countReplacements_nil : countReplacements [] = 0 := rfl

theorem countReplacements_cons_bom (t : List Char) :
    countReplacements (bomChar :: t) = countReplacements t := by
  unfold countReplacements
  rw [List.countP_cons]
  rw [show (decide (bomChar = replChar)) = false from by decide]
  simp

theorem stripLeadingBom_cons_bom (l : List Char) :
    stripLeadingBom (bomChar :: l) = l := by
  simp [stripLeadingBom]

theorem tryCandidate_none (b : BestState) (e : String) :
    tryCandidate b e none = b := rfl

theorem tryCandidate_some_lt (b : BestState) (e : String) (t : List Char)
    (h : ltOpt (countReplacements t) b.replacementCount = true) :
    tryCandidate b e (some t) = ⟨t, e, some (countReplacements t)⟩ := by
  simp [tryCandidate, h]

theorem tryCandidate_some_ge (b : BestState) (e : String) (t : List Char)
    (h : ltOpt (countReplacements t) b.replacementCount = false) :
    tryCandidate b e (some t) = b := by
  simp [tryCandidate, h]

theorem tryCandidate_utf8 (u : List Char) :
    tryCandidate ⟨[], "utf-8", none⟩ "utf-8" (some u) =
      ⟨u, "utf-8", some (countReplacements u)⟩ :=
  tryCandidate_some_lt _ _ _ rfl

theorem ltOpt_some (a b : Nat) : ltOpt a (some b) = decide (a < b) := rfl

theorem rfbe_none_none (u : List Char) :
    readFileWithBestEncoding u none none =
      ⟨stripLeadingBom u, "utf-8", countReplacements u⟩ := by
  by_cases hu0 : u = [] <;>
    simp [readFileWithBestEncoding, tryCandidate_utf8, tryCandidate_none, hu0]

theorem rfbe_some_none_lt (u tw : List Char)
    (hlt : countReplacements tw < countReplacements u) (htw : tw ≠ []) :
    readFileWithBestEncoding u (some tw) none =
      ⟨stripLeadingBom tw, "windows-1252", countReplacements tw⟩ := by
  have h2 := tryCandidate_some_lt ⟨u, "utf-8", some (countReplacements u)⟩
    "windows-1252" tw (by rw [ltOpt_some]; exact decide_eq_true hlt)
  simp [readFileWithBestEncoding, tryCandidate_utf8, tryCandidate_none, h2, htw]

theorem rfbe_some_none_ge (u tw : List Char)
    (hge : ¬ countReplacements tw < countReplacements u) :
    readFileWithBestEncoding u (some tw) none =
      ⟨stripLeadingBom u, "utf-8", countReplacements u⟩ := by
  have h2 := tryCandidate_some_ge ⟨u, "utf-8", some (countReplacements u)⟩
    "windows-1252" tw (by rw [ltOpt_some]; exact decide_eq_false hge)
  by_cases hu0 : u = []
  · subst hu0
    simp [readFileWithBestEncoding, tryCandidate_utf8, tryCandidate_none, h2]
  · simp [readFileWithBestEncoding, tryCandidate_utf8, tryCandidate_none, h2, hu0]

theorem rfbe_none_some_lt (u ti : List Char)
    (hlt : countReplacements ti < countReplacements u) (hti : ti ≠ []) :
    readFileWithBestEncoding u none (some ti) =
      ⟨stripLeadingBom ti, "iso-8859-1", countReplacements ti⟩ := by
  have h3 := tryCandidate_some_lt ⟨u, "utf-8", some (countReplacements u)⟩
    "iso-8859-1" ti (by rw [ltOpt_some]; exact decide_eq_true hlt)
  simp [readFileWithBestEncoding, tryCandidate_utf8, tryCandidate_none, h3, hti]

theorem rfbe_none_some_ge (u ti : List Char)
    (hge : ¬ countReplacements ti < countReplacements u) :
    readFileWithBestEncoding u none (some ti) =
      ⟨stripLeadingBom u, "utf-8", countReplacements u⟩ := by
  have h3 := tryCandidate_some_ge ⟨u, "utf-8", some (countReplacements u)⟩
    "iso-8859-1" ti (by rw [ltOpt_some]; exact decide_eq_false hge)
  by_cases hu0 : u = []
  · subst hu0
    simp [readFileWithBestEncoding, tryCandidate_utf8, tryCandidate_none, h3]
  · simp [readFileWithBestEncoding, tryCandidate_utf8, tryCandidate_none, h3, hu0]

theorem rfbe_some_some_iso₁ (u tw ti : List Char)
    (h1 : countReplacements tw < countReplacements u)
    (h2 : countReplacements ti < countReplacements tw) (hti : ti ≠ []) :
    readFileWithBestEncoding u (some tw) (some ti) =
      ⟨stripLeadingBom ti, "iso-8859-1", countReplacements ti⟩ := by
  have hw2 := tryCandidate_some_lt ⟨u, "utf-8", some (countReplacements u)⟩
    "windows-1252" tw (by rw [ltOpt_some]; exact decide_eq_true h1)
  have hi3 := tryCandidate_some_lt ⟨tw, "windows-1252", some (countReplacements tw)⟩
    "iso-8859-1" ti (by rw [ltOpt_some]; exact decide_eq_true h2)
  simp [readFileWithBestEncoding, tryCandidate_utf8, hw2, hi3, hti]

theorem rfbe_some_some_win (u tw ti : List Char)
    (h1 : countReplacements tw < countReplacements u)
    (h2 : ¬ countReplacements ti < countReplacements tw) (htw : tw ≠ []) :
    readFileWithBestEncoding u (some tw) (some ti) =
      ⟨stripLeadingBom tw, "windows-1252", countReplacements tw⟩ := by
  have hw2 := tryCandidate_some_lt ⟨u, "utf-8", some (countReplacements u)⟩
    "windows-1252" tw (by rw [ltOpt_some]; exact decide_eq_true h1)
  have hi3 := tryCandidate_some_ge ⟨tw, "windows-1252", some (countReplacements tw)⟩
    "iso-8859-1" ti (by rw [ltOpt_some]; exact decide_eq_false h2)
  simp [readFileWithBestEncoding, tryCandidate_utf8, hw2, hi3, htw]

theorem rfbe_some_some_iso₂ (u tw ti : List Char)
    (h1 : ¬ countReplacements tw < countReplacements u)
    (h2 : countReplacements ti < countReplacements u) (hti : ti ≠ []) :
    readFileWithBestEncoding u (some tw) (some ti) =
      ⟨stripLeadingBom ti, "iso-8859-1", countReplacements ti⟩ := by
  have hw2 := tryCandidate_some_ge ⟨u, "utf-8", some (countReplacements u)⟩
    "windows-1252" tw (by rw [ltOpt_some]; exact decide_eq_false h1)
  have hi3 := tryCandidate_some_lt ⟨u, "utf-8", some (countReplacements u)⟩
    "iso-8859-1" ti (by rw [ltOpt_some]; exact decide_eq_true h2)
  simp [readFileWithBestEncoding, tryCandidate_utf8, hw2, hi3, hti]

theorem rfbe_some_some_utf (u tw ti : List Char)
    (h1 : ¬ countReplacements tw < countReplacements u)
    (h2 : ¬ countReplacements ti < countReplacements u) :
    readFileWithBestEncoding u (some tw) (some ti) =
      ⟨stripLeadingBom u, "utf-8", countReplacements u⟩ := by
  have hw2 := tryCandidate_some_ge ⟨u, "utf-8", some (countReplacements u)⟩
    "windows-1252" tw (by rw [ltOpt_some]; exact decide_eq_false h1)
  have hi3 := tryCandidate_some_ge ⟨u, "utf-8", some (countReplacements u)⟩
    "iso-8859-1" ti (by rw [ltOpt_some]; exact decide_eq_false h2)
  by_cases hu0 : u = []
  · subst hu0
    simp [readFileWithBestEncoding, tryCandidate_utf8, hw2, hi3]
  · simp [readFileWithBestEncoding, tryCandidate_utf8, hw2, hi3, hu0]

/-- C3: the resolver selects the candidate decoding with strictly the
fewest replacement markers, and on ties the earlier candidate of the fixed
list utf-8, windows-1252, iso-8859-1 wins; in particular, bytes decoding
with zero markers under both utf-8 and a single-byte candidate are decoded
as utf-8.  The two side conditions say a candidate decode is empty only
when the utf-8 decode is empty, which is true of real byte-level decoders
(every candidate decodes a non-empty buffer to a non-empty text). -/
theorem readFileWithBestEncoding_selects_fewest (u : List Char)
    (w i : Option (List Char))
    (hw : ∀ t, w = some t → t = [] → u = [])
    (hi : ∀ t, i = some t → t = [] → u = []) :
    ((readFileWithBestEncoding u w i).replacementCount ≤ countReplacements u ∧
      (∀ t, w = some t →
        (readFileWithBestEncoding u w i).replacementCount ≤ countReplacements t) ∧
      (∀ t, i = some t →
        (readFileWithBestEncoding u w i).replacementCount ≤ countReplacements t)) ∧
    ((∀ t, w = some t → countReplacements u ≤ countReplacements t) →
      (∀ t, i = some t → countReplacements u ≤ countReplacements t) →
      (readFileWithBestEncoding u w i).encoding = "utf-8") ∧
    (∀ t, w = some t → countReplacements t < countReplacements u →
      (∀ s, i = some s → countReplacements t ≤ countReplacements s) →
      (readFileWithBestEncoding u w i).encoding = "windows-1252") := by
  rcases w with _ | tw
  · rcases i with _ | ti
    · rw [rfbe_none_none u]
      dsimp only
      refine ⟨⟨le_refl _, ?_, ?_⟩, ?_, ?_⟩
      · intro t ht; exact Option.noConfusion ht
      · intro t ht; exact Option.noConfusion ht
      · intro _ _; rfl
      · intro t ht; exact Option.noConfusion ht
    · by_cases hci : countReplacements ti < countReplacements u
      · have hti : ti ≠ [] := by
          intro h0
          have hu0 := hi ti rfl h0
          rw [h0, hu0] at hci
          exact absurd hci (lt_irrefl _)
        rw [rfbe_none_some_lt u ti hci hti]
        dsimp only
        refine ⟨⟨le_of_lt hci, ?_, ?_⟩, ?_, ?_⟩
        · intro t ht; exact Option.noConfusion ht
        · intro t ht; obtain rfl := Option.some.inj ht; exact le_refl _
        · intro _ h4i
          exact absurd (h4i ti rfl) (by omega)
        · intro t ht; exact Option.noConfusion ht
      · rw [rfbe_none_some_ge u ti hci]
        dsimp only
        refine ⟨⟨le_refl _, ?_, ?_⟩, ?_, ?_⟩
        · intro t ht; exact Option.noConfusion ht
        · intro t ht; obtain rfl := Option.some.inj ht; omega
        · intro _ _; rfl
        · intro t ht; exact Option.noConfusion ht
  · rcases i with _ | ti
    · by_cases hcw : countReplacements tw < countReplacements u
      · have htw : tw ≠ [] := by
          intro h0
          have hu0 := hw tw rfl h0
          rw [h0, hu0] at hcw
          exact absurd hcw (lt_irrefl _)
        rw [rfbe_some_none_lt u tw hcw htw]
        dsimp only
        refine ⟨⟨le_of_lt hcw, ?_, ?_⟩, ?_, ?_⟩
        · intro t ht; obtain rfl := Option.some.inj ht; exact le_refl _
        · intro t ht; exact Option.noConfusion ht
        · intro h4w _
          exact absurd (h4w tw rfl) (by omega)
        · intro t ht hlt _
          obtain rfl := Option.some.inj ht
          rfl
      · rw [rfbe_some_none_ge u tw hcw]
        dsimp only
        refine ⟨⟨le_refl _, ?_, ?_⟩, ?_, ?_⟩
        · intro t ht; obtain rfl := Option.some.inj ht; omega
        · intro t ht; exact Option.noConfusion ht
        · intro _ _; rfl
        · intro t ht hlt _
          obtain rfl := Option.some.inj ht
          exact absurd hlt (by omega)
    · by_cases hcw : countReplacements tw < countReplacements u
      · by_cases hci2 : countReplacements ti < countReplacements tw
        · have hti : ti ≠ [] := by
            intro h0
            have hu0 := hi ti rfl h0
            rw [h0] at hci2
            rw [hu0] at hcw
            rw [countReplacements_nil] at hci2 hcw
            omega
          rw [rfbe_some_some_iso₁ u tw ti hcw hci2 hti]
          dsimp only
          refine ⟨⟨by omega, ?_, ?_⟩, ?_, ?_⟩
          · intro t ht; obtain rfl := Option.some.inj ht; omega
          · intro t ht; obtain rfl := Option.some.inj ht; exact le_refl _
          · intro h4w _; exact absurd (h4w tw rfl) (by omega)
          · intro t ht hlt h5
            obtain rfl := Option.some.inj ht
            exact absurd (h5 ti rfl) (by omega)
        · have htw : tw ≠ [] := by
            intro h0
            have hu0 := hw tw rfl h0
            rw [h0, hu0] at hcw
            exact absurd hcw (lt_irrefl _)
          rw [rfbe_some_some_win u tw ti hcw hci2 htw]
          dsimp only
          refine ⟨⟨le_of_lt hcw, ?_, ?_⟩, ?_, ?_⟩
          · intro t ht; obtain rfl := Option.some.inj ht; exact le_refl _
          · intro t ht; obtain rfl := Option.some.inj ht; omega
          · intro h4w _; exact absurd (h4w tw rfl) (by omega)
          · intro t ht hlt _
            obtain rfl := Option.some.inj ht
            rfl
      · by_cases hci : countReplacements ti < countReplacements u
        · have hti : ti ≠ [] := by
            intro h0
            have hu0 := hi ti rfl h0
            rw [h0, hu0] at hci
            exact absurd hci (lt_irrefl _)
          rw [rfbe_some_some_iso₂ u tw ti hcw hci hti]
          dsimp only
          refine ⟨⟨le_of_lt hci, ?_, ?_⟩, ?_, ?_⟩
          · intro t ht; obtain rfl := Option.some.inj ht; omega
          · intro t ht; obtain rfl := Option.some.inj ht; exact le_refl _
          · intro _ h4i; exact absurd (h4i ti rfl) (by omega)
          · intro t ht hlt _
            obtain rfl := Option.some.inj ht
            exact absurd hlt (by omega)
        · rw [rfbe_some_some_utf u tw ti hcw hci]
          dsimp only
          refine ⟨⟨le_refl _, ?_, ?_⟩, ?_, ?_⟩
          · intro t ht; obtain rfl := Option.some.inj ht; omega
          · intro t ht; obtain rfl := Option.some.inj ht; omega
          · intro _ _; rfl
          · intro t ht hlt _
            obtain rfl := Option.some.inj ht
            exact absurd hlt (by omega)

/-- C3 witness: the buffer decoding cleanly as "a" under utf-8 and as "b"
under windows-1252 (zero markers both) is decoded as utf-8. -/
theorem readFileWithBestEncoding_selects_fewest_witness :
    (readFileWithBestEncoding ['a'] (some ['b']) none).encoding = "utf-8" :=
  (readFileWithBestEncoding_selects_fewest ['a'] (some ['b']) none
      (by intro t ht h0; injection ht with ht; subst ht; exact absurd h0 (by decide))
      (fun t ht => Option.noConfusion ht)).2.1
    (by intro t ht; injection ht with ht; subst ht; decide)
    (fun t ht => Option.noConfusion ht)

/-- C7 counterexample: the resolver strips exactly one leading BOM code
point, so for a text that itself begins with U+FEFF the outputs with and
without a prepended BOM differ: decoding "﻿﻿" yields "﻿"
while decoding "﻿" yields "". -/
theorem readFileWithBestEncoding_bom_not_idempotent :
    (readFileWithBestEncoding [bomChar, bomChar] none none).text ≠
      (readFileWithBestEncoding [bomChar] none none).text := by decide

/-- C7 (amended): for every text that does not itself begin with a BOM code
point (and whose candidate decodings do not begin with one), the resolver's
text output with one BOM code point prepended equals its output without it;
and the strip after selection removes exactly one leading BOM code point,
never a longer run.  The first two side conditions say a candidate decode
is empty only when the utf-8 decode is, as for real decoders. -/
theorem readFileWithBestEncoding_bom_invariant (u : List Char)
    (w i : Option (List Char))
    (hw : ∀ t, w = some t → t = [] → u = [])
    (hi : ∀ t, i = some t → t = [] → u = [])
    (hu : stripLeadingBom u = u)
    (hwb : ∀ t, w = some t → stripLeadingBom t = t)
    (hib : ∀ t, i = some t → stripLeadingBom t = t) :
    (readFileWithBestEncoding (bomChar :: u)
        (Option.map (fun t => bomChar :: t) w)
        (Option.map (fun t => bomChar :: t) i)).text =
      (readFileWithBestEncoding u w i).text ∧
    ∀ l : List Char, stripLeadingBom (bomChar :: bomChar :: l) = bomChar :: l := by
  refine ⟨?_, fun l => stripLeadingBom_cons_bom (bomChar :: l)⟩
  rcases w with _ | tw
  · rcases i with _ | ti
    · simp only [Option.map_none']
      rw [rfbe_none_none (bomChar :: u), rfbe_none_none u]
      dsimp only
      rw [stripLeadingBom_cons_bom, hu]
    · simp only [Option.map_none', Option.map_some']
      by_cases hci : countReplacements ti < countReplacements u
      · have hti : ti ≠ [] := by
          intro h0
          have hu0 := hi ti rfl h0
          rw [h0, hu0] at hci
          exact absurd hci (lt_irrefl _)
        rw [rfbe_none_some_lt u ti hci hti,
          rfbe_none_some_lt (bomChar :: u) (bomChar :: ti)
            (by rw [countReplacements_cons_bom, countReplacements_cons_bom]
                exact hci)
            (by simp)]
        dsimp only
        rw [stripLeadingBom_cons_bom, hib ti rfl]
      · rw [rfbe_none_some_ge u ti hci,
          rfbe_none_some_ge (bomChar :: u) (bomChar :: ti)
            (by rw [countReplacements_cons_bom, countReplacements_cons_bom]
                exact hci)]
        dsimp only
        rw [stripLeadingBom_cons_bom, hu]
  · rcases i with _ | ti
    · simp only [Option.map_none', Option.map_some']
      by_cases hcw : countReplacements tw < countReplacements u
      · have htw : tw ≠ [] := by
          intro h0
          have hu0 := hw tw rfl h0
          rw [h0, hu0] at hcw
          exact absurd hcw (lt_irrefl _)
        rw [rfbe_some_none_lt u tw hcw htw,
          rfbe_some_none_lt (bomChar :: u) (bomChar :: tw)
            (by rw [countReplacements_cons_bom, countReplacements_cons_bom]
                exact hcw)
            (by simp)]
        dsimp only
        rw [stripLeadingBom_cons_bom, hwb tw rfl]
      · rw [rfbe_some_none_ge u tw hcw,
          rfbe_some_none_ge (bomChar :: u) (bomChar :: tw)
            (by rw [countReplacements_cons_bom, countReplacements_cons_bom]
                exact hcw)]
        dsimp only
        rw [stripLeadingBom_cons_bom, hu]
    · simp only [Option.map_some']
      by_cases hcw : countReplacements tw < countReplacements u
      · by_cases hci2 : countReplacements ti < countReplacements tw
        · have hti : ti ≠ [] := by
            intro h0
            have hu0 := hi ti rfl h0
            rw [h0] at hci2
            rw [hu0] at hcw
            rw [countReplacements_nil] at hci2 hcw
            omega
          rw [rfbe_some_some_iso₁ u tw ti hcw hci2 hti,
            rfbe_some_some_iso₁ (bomChar :: u) (bomChar :: tw) (bomChar :: ti)
              (by rw [countReplacements_cons_bom, countReplacements_cons_bom]
                  exact hcw)
              (by rw [countReplacements_cons_bom, countReplacements_cons_bom]
                  exact hci2)
              (by simp)]
          dsimp only
          rw [stripLeadingBom_cons_bom, hib ti rfl]
        · have htw : tw ≠ [] := by
            intro h0
            have hu0 := hw tw rfl h0
            rw [h0, hu0] at hcw
            exact absurd hcw (lt_irrefl _)
          rw [rfbe_some_some_win u tw ti hcw hci2 htw,
            rfbe_some_some_win (bomChar :: u) (bomChar :: tw) (bomChar :: ti)
              (by rw [countReplacements_cons_bom, countReplacements_cons_bom]
                  exact hcw)
              (by rw [countReplacements_cons_bom, countReplacements_cons_bom]
                  exact hci2)
              (by simp)]
          dsimp only
          rw [stripLeadingBom_cons_bom, hwb tw rfl]
      · by_cases hci : countReplacements ti < countReplacements u
        · have hti : ti ≠ [] := by
            intro h0
            have hu0 := hi ti rfl h0
            rw [h0, hu0] at hci
            exact absurd hci (lt_irrefl _)
          rw [rfbe_some_some_iso₂ u tw ti hcw hci hti,
            rfbe_some_some_iso₂ (bomChar :: u) (bomChar :: tw) (bomChar :: ti)
              (by rw [countReplacements_cons_bom, countReplacements_cons_bom]
                  exact hcw)
              (by rw [countReplacements_cons_bom, countReplacements_cons_bom]
                  exact hci)
              (by simp)]
          dsimp only
          rw [stripLeadingBom_cons_bom, hib ti rfl]
        · rw [rfbe_some_some_utf u tw ti hcw hci,
            rfbe_some_some_utf (bomChar :: u) (bomChar :: tw) (bomChar :: ti)
              (by rw [countReplacements_cons_bom, countReplacements_cons_bom]
                  exact hcw)
              (by rw [countReplacements_cons_bom, countReplacements_cons_bom]
                  exact hci)]
          dsimp only
          rw [stripLeadingBom_cons_bom, hu]

/-- C7 witness: for the BOM-free text "x" the resolver output with a
prepended BOM equals the output without it. -/
theorem readFileWithBestEncoding_bom_invariant_witness :
    (readFileWithBestEncoding (bomChar :: ['x'])
        (Option.map (fun t => bomChar :: t) none)
        (Option.map (fun t => bomChar :: t) none)).text =
      (readFileWithBestEncoding ['x'] none none).text ∧
    ∀ l : List Char, stripLeadingBom (bomChar :: bomChar :: l) = bomChar :: l :=
  readFileWithBestEncoding_bom_invariant ['x'] none none
    (fun t ht => Option.noConfusion ht) (fun t ht => Option.noConfusion ht)
    (by decide) (fun t ht => Option.noConfusion ht)
    (fun t ht => Option.noConfusion ht)

end FixCsv
